import Mathlib

/-!
# Verification of the clip-extraction core of `src/app.py`

Shallow embedding of the pure/decidable core of the program: the timestamp
parser (`parse_timestamp`, `parse_timestamps`), the presentation formatters
(`format_duration`, `format_views`), the preview padding math
(`generate_preview` / `generate_preview_handler`), the ffmpeg command
construction and strategy dispatch (`download_clip_fast`,
`download_clip_precise`, `download_clip`, `trim_preview_video`), and the
batch orchestrator (`process_download`).

Conventions used throughout:
* Python strings are `List Char`; Python `int` is `Int` (or `Nat` where the
  source value is necessarily non-negative, e.g. parsed seconds).
* External collaborators (yt-dlp URL resolution, the ffmpeg subprocess, the
  filesystem) are modelled as parameters: the resolved direct URL is an
  argument, an ffmpeg invocation is recorded as the argument list it is
  given, and the per-clip extraction engine used by the orchestrator is an
  abstract function argument whose result `some path` means "returned a
  path that exists on disk".
* Functions that the source runs for their side effects are modelled as
  returning, in addition to their return value, a trace of the external
  actions they perform (commands run, files removed).
-/

set_option maxHeartbeats 1000000

def strL (s : String) : List Char := s.toList

/-- Character of a single decimal digit `d < 10`, as produced by Python's
`str`/format conversions. -/
def digitChar (d : Nat) : Char := Char.ofNat (48 + d)

/-- Fuel-driven digit rendering (structural, so that the kernel can
evaluate it); `natChars` supplies enough fuel. -/
def natCharsGo : Nat → Nat → List Char
  | 0, _ => []
  | fuel + 1, n =>
    if n < 10 then [digitChar n]
    else natCharsGo fuel (n / 10) ++ [digitChar (n % 10)]

/-- Decimal rendering of a natural number, as Python's `str(n)` /
`f"{n}"` produce it (no sign, no leading zeros, `"0"` for zero). -/
def natChars (n : Nat) : List Char := natCharsGo (n + 1) n

/-- Python `str(i)` for an `int` (adds a `-` sign when negative). -/
def pyIntRepr (n : Int) : List Char :=
  if n < 0 then '-' :: natChars n.natAbs else natChars n.toNat

/-- Numeric value of a big-endian list of decimal digit characters, the
value Python's `int(s)` computes on an all-digit string. -/
def digitsValFrom (a : Nat) (cs : List Char) : Nat :=
  cs.foldl (fun x c => 10 * x + (c.toNat - 48)) a

def digitsVal (cs : List Char) : Nat := digitsValFrom 0 cs

/-- Python `int(s)`.  Every call site in `src/app.py` passes a regex group
matched by `\d+`, i.e. a non-empty run of digit characters, so the
embedding covers exactly that domain (Python's extra acceptances — signs,
surrounding whitespace, underscores, non-ASCII digits — are unreachable
there). -/
def pyInt (cs : List Char) : Option Nat :=
  if cs ≠ [] ∧ cs.all Char.isDigit then some (digitsVal cs) else none

/-- The ASCII whitespace characters stripped by Python's `str.strip()` and
matched by the regex class `\s` (the unicode extras are unreachable from
the timestamp syntax). -/
def isPySpace (c : Char) : Bool :=
  c = ' ' || c = '\t' || c = '\n' || c = '\r' || c = Char.ofNat 11 || c = Char.ofNat 12

/-- Right-hand side of Python's `str.strip()`: drop trailing whitespace. -/
def rstripP (cs : List Char) : List Char :=
  (cs.reverse.dropWhile isPySpace).reverse

/-- Python `str.strip()`: drop leading and trailing whitespace. -/
def pstrip (cs : List Char) : List Char :=
  rstripP (cs.dropWhile isPySpace)

/-- Python `str.split(sep)` for a one-character separator: keeps empty
pieces, and `"".split(sep) == [""]`. -/
def splitChar (sep : Char) : List Char → List (List Char)
  | [] => [[]]
  | c :: cs =>
    if c = sep then [] :: splitChar sep cs
    else
      match splitChar sep cs with
      | [] => [[c]]
      | g :: gs => (c :: g) :: gs

/-- Python `"\n".join(lines)`. -/
def joinNl : List (List Char) → List Char
  | [] => []
  | [l] => l
  | l :: ls => l ++ '\n' :: joinNl ls

/-- `text.strip().split('\n')` — the line decomposition `parse_timestamps`
performs (src/app.py line 106). -/
def pythonLines (text : List Char) : List (List Char) :=
  splitChar '\n' (pstrip text)

/-- `parse_timestamp` (src/app.py lines 90-99): `"MM:SS"` to seconds.
Strips, splits on `':'`, requires exactly two parts, converts each with
`int`, returns `mins * 60 + secs`; any failure (wrong arity, non-numeric)
yields `None`. -/
def parse_timestamp (ts : List Char) : Option Nat :=
  match splitChar ':' (pstrip ts) with
  | [m, s] =>
    match pyInt m, pyInt s with
    | some mv, some sv => some (mv * 60 + sv)
    | _, _ => none
  | _ => none

/-- The anchored match of `re.match(r'(\d+:\d+)\s*-\s*(\d+:\d+)', line)`
(src/app.py line 114), returning the two groups.  The pattern's character
classes are pairwise disjoint at every boundary (`\d` vs `:`, `\s`, `-`),
so greedy matching without backtracking is exact. -/
def reMatchTs (cs : List Char) : Option (List Char × List Char) :=
  let d1 := cs.takeWhile Char.isDigit
  let r1 := cs.dropWhile Char.isDigit
  if d1 = [] then none
  else
    match r1 with
    | ':' :: r2 =>
      let d2 := r2.takeWhile Char.isDigit
      let r3 := r2.dropWhile Char.isDigit
      if d2 = [] then none
      else
        match r3.dropWhile isPySpace with
        | '-' :: r5 =>
          let r6 := r5.dropWhile isPySpace
          let d3 := r6.takeWhile Char.isDigit
          let r7 := r6.dropWhile Char.isDigit
          if d3 = [] then none
          else
            match r7 with
            | ':' :: r8 =>
              let d4 := r8.takeWhile Char.isDigit
              if d4 = [] then none
              else some (d1 ++ ':' :: d2, d3 ++ ':' :: d4)
            | _ => none
        | _ => none
    | _ => none

/-- The dictionary appended per parsed line (src/app.py lines 123-128). -/
structure Clip where
  start_str : List Char
  end_str : List Char
  start_sec : Nat
  end_sec : Nat
deriving DecidableEq, Repr

/-- The accumulator loop of `parse_timestamps` (src/app.py lines 109-128):
per line — strip, skip blank, regex-match, convert both groups, keep only
`start_sec < end_sec`. -/
def ptGo : List (List Char) → List Clip → List Clip
  | [], clips => clips
  | line :: rest, clips =>
    let l := pstrip line
    if l = [] then ptGo rest clips
    else
      match reMatchTs l with
      | none => ptGo rest clips
      | some (g1, g2) =>
        match parse_timestamp g1, parse_timestamp g2 with
        | some s, some e =>
          if s < e then ptGo rest (clips ++ [⟨g1, g2, s, e⟩])
          else ptGo rest clips
        | _, _ => ptGo rest clips

/-- `parse_timestamps` (src/app.py lines 101-131). -/
def parse_timestamps (text : List Char) : List Clip :=
  ptGo (pythonLines text) []

/-- Specification-side single-line reading: what one line of input
contributes.  Mirrors the body of the `parse_timestamps` loop; the theorem
`parse_timestamps_eq_filterMap` connects the two. -/
def lineClip (line : List Char) : Option Clip :=
  let l := pstrip line
  if l = [] then none
  else
    match reMatchTs l with
    | none => none
    | some (g1, g2) =>
      match parse_timestamp g1, parse_timestamp g2 with
      | some s, some e =>
        if s < e then some ⟨g1, g2, s, e⟩ else none
      | _, _ => none

/-- Two-digit zero-padded rendering, Python's `f"{n:02d}"` for `0 ≤ n`. -/
def pad2 (n : Nat) : List Char :=
  if n < 10 then '0' :: natChars n else natChars n

/-- `format_duration` (src/app.py lines 72-78).  The input is `Option Int`
because the call sites pass either a possibly-missing metadata field or an
`int`; Python's `not seconds` is true exactly for `None` and `0`. -/
def format_duration (seconds : Option Int) : List Char :=
  match seconds with
  | none => strL "Unknown"
  | some s =>
    if s = 0 then strL "Unknown"
    else pyIntRepr (Int.fdiv s 60) ++ ':' :: pad2 (Int.fmod s 60).toNat

/-- Round-half-to-even of `10 * n / d` (the value in tenths behind
Python's `f"{n/d:.1f}"`).  This coincides with CPython's float formatting
whenever `n / d` is exactly representable in binary64 — which holds for
every input the view-count claims exercise (`1500/1000 = 1.5`,
`2500000/1000000 = 2.5`). -/
def round1 (n d : Nat) : Nat :=
  let q := (10 * n) / d
  let r := (10 * n) % d
  if 2 * r < d then q
  else if d < 2 * r then q + 1
  else if q % 2 = 0 then q else q + 1

/-- Rendering of `f"{n/d:.1f}"` under the exactness caveat of `round1`. -/
def fmt1 (n d : Nat) : List Char :=
  let t := round1 n d
  natChars (t / 10) ++ '.' :: [digitChar (t % 10)]

/-- `format_views` (src/app.py lines 80-88); `not count` is true exactly
for `None` and `0`. -/
def format_views (count : Option Nat) : List Char :=
  match count with
  | none => strL "Unknown"
  | some c =>
    if c = 0 then strL "Unknown"
    else if 1000000 ≤ c then fmt1 c 1000000 ++ [ 'M' ]
    else if 1000 ≤ c then fmt1 c 1000 ++ [ 'K' ]
    else natChars c

/-! ## Preview padding math (src/app.py lines 147-153 and 583-594) -/

/-- The padded preview window computed by `generate_preview`
(src/app.py lines 150-153): `buffer_start = max(0, start_time - 5)`,
`buffer_end = end_time + 5`, `buffer_duration = buffer_end - buffer_start`. -/
def generate_preview_window (start_time end_time : Int) : Int × Int × Int :=
  (max 0 (start_time - 5), end_time + 5, (end_time + 5) - max 0 (start_time - 5))

/-- Modelled from the spec: the generic padded window of the
PaddedHybrid/PreviewThenTrim strategies, `[max(0, start - pad), end + pad]`.
PaddedHybrid itself (pad = 10) is not present in `src/app.py`, which only
contains the preview path with its hard-coded pad of 5; this definition
follows the spec's padding-math sentence so that the general-pad part of
the padding claim can be stated. -/
def paddedWindow (pad start_time end_time : Int) : Int × Int :=
  (max 0 (start_time - pad), end_time + pad)

/-- The relative timestamps computed by `generate_preview_handler`
(src/app.py lines 584-585): offsets of the requested clip from the padded
window's own start. -/
def preview_relative_offsets (start_sec end_sec buffer_start : Int) : Int × Int :=
  (start_sec - buffer_start, end_sec - buffer_start)

/-! ## ffmpeg command construction and strategy dispatch
(src/app.py lines 218-473)

The yt-dlp URL resolution is external: the resolved `direct_url` is a
parameter.  Timestamps are modelled at integer precision (the batch path
feeds the parser's integer seconds; the preview path's slider floats only
matter for rendering, not for any claim). -/

/-- The `scale`/`crop` filter chain added when `crop_vertical` is set
(src/app.py lines 362-364, 432-434). -/
def cropFilter : List Char :=
  strL "scale=1080:1920:force_original_aspect_ratio=increase,crop=1080:1920"

/-- The stream-copy command of `download_clip_fast`
(src/app.py lines 264-273). -/
def fastCopyCmd (direct_url : List Char) (start_time end_time : Int)
    (final_path : List Char) : List (List Char) :=
  [strL "ffmpeg", strL "-ss", pyIntRepr start_time, strL "-i", direct_url,
   strL "-t", pyIntRepr (end_time - start_time), strL "-c", strL "copy",
   strL "-avoid_negative_ts", strL "make_zero", strL "-y", final_path]

/-- The re-encode command of `download_clip_precise`
(src/app.py lines 347-370), with the filter chain inserted when
`crop_vertical` is set. -/
def preciseCmd (direct_url : List Char) (start_time end_time : Int)
    (crop : Bool) (final_path : List Char) : List (List Char) :=
  [strL "ffmpeg", strL "-ss", pyIntRepr start_time, strL "-i", direct_url,
   strL "-t", pyIntRepr (end_time - start_time),
   strL "-c:v", strL "libx264", strL "-preset", strL "fast",
   strL "-crf", strL "26", strL "-c:a", strL "aac", strL "-b:a", strL "128k"]
  ++ (if crop then [strL "-vf", cropFilter] else [])
  ++ [strL "-avoid_negative_ts", strL "make_zero", strL "-y", final_path]

/-- What an extraction entry point does first: either reject the range, or
hand a concrete argument list to ffmpeg. -/
inductive ExtractStep where
  | invalidRange : ExtractStep
  | runFfmpeg (cmd : List (List Char)) : ExtractStep
deriving DecidableEq, Repr

/-- `download_clip_precise` (src/app.py lines 305-400): unconditionally
runs the re-encode command. -/
def download_clip_precise_step (direct_url : List Char) (s e : Int)
    (crop : Bool) (path : List Char) : ExtractStep :=
  ExtractStep.runFfmpeg (preciseCmd direct_url s e crop path)

/-- `download_clip_fast` (src/app.py lines 218-303): when `crop_vertical`
is set it returns `download_clip_precise(...)` before building the copy
command (lines 260-262); otherwise it runs the stream-copy command. -/
def download_clip_fast_step (direct_url : List Char) (s e : Int)
    (crop : Bool) (path : List Char) : ExtractStep :=
  if crop then download_clip_precise_step direct_url s e crop path
  else ExtractStep.runFfmpeg (fastCopyCmd direct_url s e path)

/-- `download_clip` (src/app.py lines 466-473): routes on `precise_mode`
and nothing else — in particular it performs no comparison of
`start_time` with `end_time`. -/
def download_clip_step (precise_mode : Bool) (direct_url : List Char)
    (s e : Int) (crop : Bool) (path : List Char) : ExtractStep :=
  if precise_mode then download_clip_precise_step direct_url s e crop path
  else download_clip_fast_step direct_url s e crop path

/-! ## Preview trim and its external-action trace
(src/app.py lines 402-464 and 628-654) -/

/-- The re-encode command built by `trim_preview_video`
(src/app.py lines 418-440): seek to the relative start within the padded
preview file, duration `trim_end_relative - trim_start_relative`. -/
def trimCmd (preview_path : List Char) (ts te : Int) (crop : Bool)
    (final_path : List Char) : List (List Char) :=
  [strL "ffmpeg", strL "-ss", pyIntRepr ts, strL "-i", preview_path,
   strL "-t", pyIntRepr (te - ts),
   strL "-c:v", strL "libx264", strL "-preset", strL "fast",
   strL "-crf", strL "26", strL "-c:a", strL "aac", strL "-b:a", strL "128k"]
  ++ (if crop then [strL "-vf", cropFilter] else [])
  ++ [strL "-avoid_negative_ts", strL "make_zero", strL "-y", final_path]

/-- An external action performed by the program: running a subprocess, or
deleting a file. -/
inductive FsAction where
  | runCmd (cmd : List (List Char)) : FsAction
  | removeFile (path : List Char) : FsAction
deriving DecidableEq, Repr

/-- External actions performed by `trim_preview_video`
(src/app.py lines 402-464) on any control path.  `ffmpegOk` is the
subprocess's `returncode == 0`, `created` is `os.path.exists(final_path)`;
the body runs exactly one subprocess and — whether that invocation
succeeds, fails, or the output file is missing — performs no file
deletion (there is no `os.remove`/`unlink` anywhere in the function or its
caller). -/
def trim_preview_video_actions (preview_path : List Char) (ts te : Int)
    (crop : Bool) (final_path : List Char) (ffmpegOk created : Bool) :
    List FsAction :=
  [FsAction.runCmd (trimCmd preview_path ts te crop final_path)]

/-- The value `trim_preview_video` returns: the output path on success
(`returncode == 0` and the file exists), otherwise `None` with an error
message. -/
def trim_preview_video_result (final_path : List Char)
    (ffmpegOk created : Bool) : Option (List Char) :=
  if ffmpegOk && created then some final_path else none

/-- The output-name default of `download_from_preview`
(src/app.py line 647): `clip_name if clip_name.strip() else "clip_1"`. -/
def defaultClipName (clip_name : List Char) : List Char :=
  if pstrip clip_name = [] then strL "clip_1" else clip_name

/-- External actions performed by `download_from_preview`
(src/app.py lines 628-654): guards (no preview, missing preview file,
`start >= end`) short-circuit with no action; otherwise the actions are
exactly those of `trim_preview_video`. -/
def download_from_preview_actions (current_preview : Option (List Char))
    (previewExists : Bool) (ts te : Int) (crop : Bool)
    (final_path : List Char) (ffmpegOk created : Bool) : List FsAction :=
  match current_preview with
  | none => []
  | some p =>
    if !previewExists then []
    else if te ≤ ts then []
    else trim_preview_video_actions p ts te crop final_path ffmpegOk created

/-! ## Batch orchestrator (src/app.py lines 656-725) -/

/-- The selected video as the orchestrator reads it (title for the report
header, url for the engine). -/
structure Video where
  title : List Char
  url : List Char

/-- One invocation of `download_clip` as issued by the orchestrator loop
(src/app.py lines 702-710). -/
structure EngineCall where
  url : List Char
  start_sec : Nat
  end_sec : Nat
  name : List Char
  quality : List Char
  crop : Bool
  precise : Bool
deriving DecidableEq, Repr

def mkCall (url pre quality : List Char) (cv pm : Bool) (c : Clip) (i : Nat) :
    EngineCall :=
  ⟨url, c.start_sec, c.end_sec, pre ++ '_' :: natChars i, quality, cv, pm⟩

/-- `f"\n⏳ Clip {i}/{len(clips)}: {clip['start']}-{clip['end']}..."`
(src/app.py line 698). -/
def attemptLine (i total : Nat) (c : Clip) : List Char :=
  strL "\n⏳ Clip " ++ natChars i ++ strL "/" ++ natChars total ++ strL ": "
    ++ c.start_str ++ strL "-" ++ c.end_str ++ strL "..."

/-- `f"   {msg}"` (src/app.py line 712). -/
def resultLine (msg : List Char) : List Char := strL "   " ++ msg

/-- `f"\n\n✅ Successfully downloaded {len(downloaded_files)}/{len(clips)} clips!"`
(src/app.py line 720). -/
def tallyLine (k n : Nat) : List Char :=
  strL "\n\n✅ Successfully downloaded " ++ natChars k ++ strL "/"
    ++ natChars n ++ strL " clips!"

/-- The retention reminder appended after the tally (src/app.py line 721). -/
def tipLine : List Char :=
  strL "\n💾 Download files immediately - they will be deleted when session ends."

/-- `f"{mode_emoji} Processing {len(clips)} clips using {mode_name}"`
(src/app.py lines 668, 691-692). -/
def headerLine (n : Nat) (pm : Bool) : List Char :=
  (if pm then strL "🎯" else strL "⚡") ++ strL " Processing " ++ natChars n
    ++ strL " clips using "
    ++ (if pm then strL "Precise Mode 🎯" else strL "Fast Mode ⚡")

/-- `f"📹 Video: {selected_video['title']}\n"` (src/app.py line 693). -/
def videoLine (title : List Char) : List Char :=
  strL "📹 Video: " ++ title ++ strL "\n"

/-- The per-clip loop of `process_download` (src/app.py lines 696-718),
instrumented with the list of engine invocations it issues.  The engine
result's first component is `some path` exactly when the source's
`file_path and os.path.exists(file_path)` holds. -/
def pdLoop (engine : EngineCall → Option (List Char) × List Char)
    (url pre quality : List Char) (cv pm : Bool) (total : Nat) :
    List Clip → Nat → List (List Char) × List (List Char) × List EngineCall
  | [], _ => ([], [], [])
  | c :: cs, i =>
    let call := mkCall url pre quality cv pm c i
    let res := engine call
    let rest := pdLoop engine url pre quality cv pm total cs (i + 1)
    (attemptLine i total c :: resultLine res.2 :: rest.1,
     (match res.1 with
      | some p => p :: rest.2.1
      | none => rest.2.1),
     call :: rest.2.2)

/-- `process_download` (src/app.py lines 656-725), instrumented with the
engine-invocation trace.  Returns the joined report, the downloaded file
list, and the list of engine calls made. -/
def process_download (engine : EngineCall → Option (List Char) × List Char)
    (selected : Option Video) (timestamps_text name_pre quality : List Char)
    (cv pm : Bool) : List Char × List (List Char) × List EngineCall :=
  match selected with
  | none => (strL "❌ No video selected", [], [])
  | some v =>
    if pstrip timestamps_text = [] then (strL "❌ Please enter timestamps", [], [])
    else
      let pre := if pstrip name_pre = [] then strL "clip" else name_pre
      let clips := parse_timestamps timestamps_text
      if clips = [] then
        (strL "❌ No valid timestamps. Use format: 2:30-3:15 (one per line)", [], [])
      else
        let r := pdLoop engine v.url pre quality cv pm clips.length clips 1
        (joinNl (headerLine clips.length pm :: videoLine v.title ::
            (r.1 ++ [tallyLine r.2.1.length clips.length, tipLine])),
         r.2.1, r.2.2)

/-! ## Specification-side renderer for the parser round-trip -/

/-- Render one second-pair as the `"M:SS-M:SS"` line shape named by the
round-trip property: minutes `n / 60`, seconds `n % 60` zero-padded to
two digits. -/
def renderPair (p : Nat × Nat) : List Char :=
  natChars (p.1 / 60) ++ ':' :: (pad2 (p.1 % 60) ++
    ('-' :: (natChars (p.2 / 60) ++ ':' :: pad2 (p.2 % 60))))

/-- Join rendered lines with newlines, producing the parser's input. -/
def renderLines (ps : List (Nat × Nat)) : List Char :=
  joinNl (ps.map renderPair)

/-- A concrete extraction engine whose every call fails (used to exercise
the batch report on failures). -/
def engineAllFail : EngineCall → Option (List Char) × List Char :=
  fun _ => (none, strL "❌ Error: FetchFailed")

/-- A concrete extraction engine whose every call succeeds, returning the
requested output name as the produced path. -/
def engineAllOk : EngineCall → Option (List Char) × List Char :=
  fun c => (some c.name, strL "✅ Downloaded")

/-! ## Properties of the rendering and stripping helpers -/

theorem natCharsGo_stable : ∀ (n fuel fuel' : Nat), n < fuel → n < fuel' →
    natCharsGo fuel n = natCharsGo fuel' n := by
  intro n
  induction n using Nat.strong_induction_on with
  | _ n ih =>
    intro fuel fuel' hf hf'
    match fuel, fuel' with
    | f + 1, f' + 1 =>
      show natCharsGo (f + 1) n = natCharsGo (f' + 1) n
      by_cases h : n < 10
      · simp [natCharsGo, h]
      · have hdiv : n / 10 < n := Nat.div_lt_self (by omega) (by omega)
        have : natCharsGo f (n / 10) = natCharsGo f' (n / 10) :=
          ih (n / 10) hdiv f f' (by omega) (by omega)
        simp [natCharsGo, h, this]

/-- The recursive unfolding of `natChars`. -/
theorem natChars_unfold (n : Nat) :
    natChars n = if n < 10 then [digitChar n]
      else natChars (n / 10) ++ [digitChar (n % 10)] := by
  show natCharsGo (n + 1) n = _
  by_cases h : n < 10
  · simp [natCharsGo, h]
  · have hdiv : n / 10 < n := Nat.div_lt_self (by omega) (by omega)
    have : natCharsGo n (n / 10) = natCharsGo (n / 10 + 1) (n / 10) :=
      natCharsGo_stable (n / 10) n (n / 10 + 1) (by omega) (by omega)
    simp [natCharsGo, h]
    exact this

/-! ## Character and rendering lemmas -/

/-- No character satisfying `p` at the head (vacuous for `[]`). -/
def headNot (p : Char → Bool) (ys : List Char) : Prop :=
  ∀ c, ys.head? = some c → p c = false

theorem digitChar_isDigit {d : Nat} (h : d < 10) : (digitChar d).isDigit = true := by
  interval_cases d <;> decide

theorem digitChar_toNat {d : Nat} (h : d < 10) : (digitChar d).toNat = 48 + d := by
  interval_cases d <;> decide

theorem isDigit_not_space {c : Char} (h : c.isDigit = true) : isPySpace c = false := by
  cases hs : isPySpace c
  · rfl
  · exfalso
    have hd : c = ' ' ∨ c = '\t' ∨ c = '\n' ∨ c = '\r' ∨ c = Char.ofNat 11 ∨ c = Char.ofNat 12 := by
      simpa [isPySpace, or_assoc] using hs
    rcases hd with h1 | h1 | h1 | h1 | h1 | h1 <;> subst h1 <;> exact absurd h (by decide)

theorem isDigit_ne_colon {c : Char} (h : c.isDigit = true) : c ≠ ':' :=
  fun he => absurd (he ▸ h) (by decide)

theorem isDigit_ne_hyphen {c : Char} (h : c.isDigit = true) : c ≠ '-' :=
  fun he => absurd (he ▸ h) (by decide)

theorem isDigit_ne_nl {c : Char} (h : c.isDigit = true) : c ≠ '\n' :=
  fun he => absurd (he ▸ h) (by decide)

theorem isPySpace_not_digit {c : Char} (h : isPySpace c = true) : c.isDigit = false := by
  cases hd : c.isDigit
  · rfl
  · rw [isDigit_not_space hd] at h
    exact absurd h (by decide)

theorem natChars_ne_nil (n : Nat) : natChars n ≠ [] := by
  rw [natChars_unfold]
  by_cases h : n < 10 <;> simp [h]

theorem natChars_all_digit (n : Nat) : ∀ c ∈ natChars n, c.isDigit = true := by
  induction n using Nat.strong_induction_on with
  | _ n ih =>
    rw [natChars_unfold]
    by_cases h : n < 10
    · simp only [if_pos h, List.mem_singleton]
      intro c hc
      exact hc ▸ digitChar_isDigit h
    · simp only [if_neg h]
      intro c hc
      rcases List.mem_append.1 hc with h1 | h1
      · exact ih (n / 10) (Nat.div_lt_self (by omega) (by omega)) c h1
      · rw [List.mem_singleton.1 h1]
        exact digitChar_isDigit (Nat.mod_lt _ (by omega))

theorem digitsValFrom_cons (a : Nat) (c : Char) (cs : List Char) :
    digitsValFrom a (c :: cs) = digitsValFrom (10 * a + (c.toNat - 48)) cs := rfl

theorem digitsValFrom_append (a : Nat) (xs ys : List Char) :
    digitsValFrom a (xs ++ ys) = digitsValFrom (digitsValFrom a xs) ys :=
  List.foldl_append _ _ _ _

theorem digitsValFrom_natChars (n : Nat) :
    ∀ a, digitsValFrom a (natChars n) = a * 10 ^ (natChars n).length + n := by
  induction n using Nat.strong_induction_on with
  | _ n ih =>
    intro a
    rw [natChars_unfold]
    by_cases h : n < 10
    · simp only [if_pos h, digitsValFrom, List.foldl_cons, List.foldl_nil,
        List.length_singleton, pow_one, digitChar_toNat h]
      omega
    · simp only [if_neg h, digitsValFrom_append, List.length_append,
        List.length_singleton]
      have hdiv : n / 10 < n := Nat.div_lt_self (by omega) (by omega)
      rw [ih (n / 10) hdiv a, digitsValFrom_cons]
      simp only [digitsValFrom, List.foldl_nil,
        digitChar_toNat (Nat.mod_lt n (by omega))]
      have h10 : 10 * (n / 10) + n % 10 = n := Nat.div_add_mod n 10
      have : 10 ^ ((natChars (n / 10)).length + 1) =
          10 ^ (natChars (n / 10)).length * 10 := pow_succ 10 _
      rw [this]
      ring_nf
      omega

theorem digitsVal_natChars (n : Nat) : digitsVal (natChars n) = n := by
  have := digitsValFrom_natChars n 0
  simpa [digitsVal] using this

/-! ## `takeWhile` / `dropWhile` / `splitChar` / `pstrip` lemmas -/

theorem takeWhile_append_all {p : Char → Bool} :
    ∀ (xs ys : List Char), (∀ c ∈ xs, p c = true) → headNot p ys →
      (xs ++ ys).takeWhile p = xs ∧ (xs ++ ys).dropWhile p = ys
  | [], ys, _, hy => by
    refine ⟨?_, ?_⟩ <;> cases ys with
    | nil => rfl
    | cons c t => simp [List.takeWhile_cons, List.dropWhile_cons, hy c rfl]
  | x :: xs, ys, hx, hy => by
    have hpx : p x = true := hx x (List.mem_cons_self _ _)
    have ih := takeWhile_append_all xs ys (fun c hc => hx c (List.mem_cons_of_mem _ hc)) hy
    simp [List.takeWhile_cons, List.dropWhile_cons, hpx, ih.1, ih.2]

theorem headNot_dropWhile {p : Char → Bool} : ∀ l : List Char, headNot p (l.dropWhile p)
  | [] => fun c hc => by simp at hc
  | x :: xs => by
    by_cases hx : p x
    · simpa [List.dropWhile_cons, hx] using headNot_dropWhile xs
    · intro c hc
      simp [List.dropWhile_cons, hx] at hc
      subst hc
      exact Bool.eq_false_iff.mpr hx

theorem dropWhile_of_headNot {p : Char → Bool} (xs : List Char)
    (h : headNot p xs) : xs.dropWhile p = xs := by
  cases xs with
  | nil => rfl
  | cons c t => simp [List.dropWhile_cons, h c rfl]

theorem dropWhile_append_keep {p : Char → Bool} {c : Char} (hc : p c = false) :
    ∀ xs ys : List Char, (xs ++ c :: ys).dropWhile p = xs.dropWhile p ++ c :: ys
  | [], ys => by simp [List.dropWhile_cons, hc]
  | x :: xs, ys => by
    by_cases hx : p x
    · simp [List.dropWhile_cons, hx, dropWhile_append_keep hc xs ys]
    · simp [List.dropWhile_cons, hx]

theorem exists_append_dropWhile {p : Char → Bool} :
    ∀ l : List Char, ∃ t, t ++ l.dropWhile p = l
  | [] => ⟨[], rfl⟩
  | c :: cs => by
    by_cases h : p c
    · obtain ⟨t, ht⟩ := exists_append_dropWhile (p := p) cs
      exact ⟨c :: t, by simp [List.dropWhile_cons, h, ht]⟩
    · exact ⟨[], by simp [List.dropWhile_cons, h]⟩

theorem splitChar_not_mem {sep : Char} :
    ∀ xs : List Char, sep ∉ xs → splitChar sep xs = [xs]
  | [], _ => rfl
  | c :: cs, h => by
    have hc : ¬ c = sep := fun e => h (e ▸ List.mem_cons_self _ _)
    have ih := splitChar_not_mem cs (fun m => h (List.mem_cons_of_mem _ m))
    simp [splitChar, hc, ih]

theorem splitChar_append {sep : Char} :
    ∀ xs ys : List Char, sep ∉ xs →
      splitChar sep (xs ++ sep :: ys) = xs :: splitChar sep ys
  | [], ys, _ => by simp [splitChar]
  | c :: cs, ys, h => by
    have hc : ¬ c = sep := fun e => h (e ▸ List.mem_cons_self _ _)
    have ih := splitChar_append cs ys (fun m => h (List.mem_cons_of_mem _ m))
    simp [splitChar, hc, ih]

theorem joinNl_cons_cons (l l' : List Char) (ls : List (List Char)) :
    joinNl (l :: l' :: ls) = l ++ '\n' :: joinNl (l' :: ls) := rfl

theorem splitChar_joinNl :
    ∀ ls : List (List Char), ls ≠ [] → (∀ l ∈ ls, '\n' ∉ l) →
      splitChar '\n' (joinNl ls) = ls
  | [], h, _ => absurd rfl h
  | [l], _, h => splitChar_not_mem l (h l (List.mem_singleton.2 rfl))
  | l :: l' :: ls, _, h => by
    rw [joinNl_cons_cons, splitChar_append _ _ (h l (List.mem_cons_self _ _))]
    rw [splitChar_joinNl (l' :: ls) (by simp) (fun x hx => h x (List.mem_cons_of_mem _ hx))]

theorem rstripP_of_lastNot (xs : List Char)
    (h : ∀ c, xs.getLast? = some c → isPySpace c = false) : rstripP xs = xs := by
  unfold rstripP
  rw [dropWhile_of_headNot _ (fun c hc => h c (by rwa [List.head?_reverse] at hc))]
  exact List.reverse_reverse xs

theorem pstrip_of_ends (xs : List Char) (h1 : headNot isPySpace xs)
    (h2 : ∀ c, xs.getLast? = some c → isPySpace c = false) : pstrip xs = xs := by
  unfold pstrip
  rw [dropWhile_of_headNot _ h1, rstripP_of_lastNot _ h2]

theorem rstripP_append_nonspace (A rest : List Char)
    (hA : ∃ c, A.getLast? = some c ∧ isPySpace c = false) :
    rstripP (A ++ rest) = A ++ rstripP rest := by
  obtain ⟨c, hc, hcs⟩ := hA
  have hrev : A.reverse.head? = some c := by rwa [List.head?_reverse]
  cases hA' : A.reverse with
  | nil => rw [hA'] at hrev; exact absurd hrev (by simp)
  | cons c' t =>
    have hcc : c' = c := by
      rw [hA'] at hrev
      simpa using hrev
    subst hcc
    unfold rstripP
    rw [List.reverse_append, hA', dropWhile_append_keep hcs]
    rw [List.reverse_append]
    congr 1
    have := congrArg List.reverse hA'
    simpa using this.symm

theorem rstripP_prefix (l : List Char) : ∃ t, rstripP l ++ t = l := by
  obtain ⟨t, ht⟩ := exists_append_dropWhile (p := isPySpace) l.reverse
  refine ⟨t.reverse, ?_⟩
  have h2 := congrArg List.reverse ht
  simpa [rstripP] using h2

theorem headNot_rstripP {p : Char → Bool} (l : List Char) (h : headNot p l) :
    headNot p (rstripP l) := by
  intro c hc
  obtain ⟨t, ht⟩ := rstripP_prefix l
  apply h c
  rw [← ht]
  cases hr : rstripP l with
  | nil => rw [hr] at hc; exact absurd hc (by simp)
  | cons c' u =>
    rw [hr] at hc
    simp at hc
    subst hc
    simp

theorem not_mem_rstripP {l : List Char} {c : Char} (h : c ∉ l) : c ∉ rstripP l := by
  intro hm
  obtain ⟨t, ht⟩ := rstripP_prefix l
  exact h (ht ▸ List.mem_append.2 (Or.inl hm))

theorem rstripP_idem (l : List Char) : rstripP (rstripP l) = rstripP l := by
  apply rstripP_of_lastNot
  intro c hc
  rw [← List.head?_reverse] at hc
  have : (rstripP l).reverse = l.reverse.dropWhile isPySpace := by
    simp [rstripP]
  rw [this] at hc
  exact headNot_dropWhile l.reverse c hc

theorem mem_of_getLast?' {l : List Char} {c : Char} (h : l.getLast? = some c) :
    c ∈ l := by
  rw [← List.head?_reverse] at h
  have hm : c ∈ l.reverse := by
    cases hl : l.reverse with
    | nil => rw [hl] at h; exact absurd h (by simp)
    | cons a t =>
      rw [hl] at h
      simp at h
      subst h
      simp
  exact List.mem_reverse.1 hm

theorem headNot_digit_cons_colon (R : List Char) : headNot Char.isDigit (':' :: R) := by
  intro c hc
  simp at hc
  subst hc
  decide

theorem headNot_space_of_digit {l : List Char}
    (hd : ∀ c ∈ l, c.isDigit = true) : headNot isPySpace l := by
  intro c hc
  cases l with
  | nil => exact absurd hc (by simp)
  | cons a t =>
    simp at hc
    subst hc
    exact isDigit_not_space (hd a (List.mem_cons_self _ _))

theorem headNot_digit_of_space {ws tail : List Char}
    (hw : ∀ c ∈ ws, isPySpace c = true) (htl : headNot Char.isDigit tail) :
    headNot Char.isDigit (ws ++ tail) := by
  cases ws with
  | nil => simpa using htl
  | cons a t =>
    intro c hc
    simp at hc
    subst hc
    exact isPySpace_not_digit (hw a (List.mem_cons_self _ _))

theorem headNot_append_left {p : Char → Bool} {xs ys : List Char}
    (hxs : xs ≠ []) (h : headNot p xs) : headNot p (xs ++ ys) := by
  cases xs with
  | nil => exact absurd rfl hxs
  | cons a t =>
    intro c hc
    simp at hc
    subst hc
    exact h a rfl

/-- The regex matcher succeeds on any input whose prefix has the
`digits:digits ws - ws digits:digits` shape, as long as what follows the
last digit run does not begin with another digit, and returns the two
groups. -/
theorem reMatchTs_spec (d1 d2 d3 d4 ws1 ws2 rest : List Char)
    (h1 : d1 ≠ []) (h1d : ∀ c ∈ d1, c.isDigit = true)
    (h2 : d2 ≠ []) (h2d : ∀ c ∈ d2, c.isDigit = true)
    (h3 : d3 ≠ []) (h3d : ∀ c ∈ d3, c.isDigit = true)
    (h4 : d4 ≠ []) (h4d : ∀ c ∈ d4, c.isDigit = true)
    (hw1 : ∀ c ∈ ws1, isPySpace c = true)
    (hw2 : ∀ c ∈ ws2, isPySpace c = true)
    (hrest : headNot Char.isDigit rest) :
    reMatchTs (d1 ++ ':' :: (d2 ++ (ws1 ++ '-' :: (ws2 ++ (d3 ++ ':' :: (d4 ++ rest)))))) =
      some (d1 ++ ':' :: d2, d3 ++ ':' :: d4) := by
  have s1 := takeWhile_append_all d1
    (':' :: (d2 ++ (ws1 ++ '-' :: (ws2 ++ (d3 ++ ':' :: (d4 ++ rest))))))
    h1d (headNot_digit_cons_colon _)
  have hndws : headNot Char.isDigit (ws1 ++ '-' :: (ws2 ++ (d3 ++ ':' :: (d4 ++ rest)))) := by
    apply headNot_digit_of_space hw1
    intro c hc
    simp at hc
    subst hc
    decide
  have s2 := takeWhile_append_all d2
    (ws1 ++ '-' :: (ws2 ++ (d3 ++ ':' :: (d4 ++ rest)))) h2d hndws
  have s3 := takeWhile_append_all (p := isPySpace) ws1
    ('-' :: (ws2 ++ (d3 ++ ':' :: (d4 ++ rest)))) hw1
    (by intro c hc; simp at hc; subst hc; decide)
  have s4 := takeWhile_append_all (p := isPySpace) ws2
    (d3 ++ ':' :: (d4 ++ rest)) hw2
    (headNot_append_left h3 (headNot_space_of_digit h3d))
  have s5 := takeWhile_append_all d3 (':' :: (d4 ++ rest)) h3d
    (headNot_digit_cons_colon _)
  have s6 := takeWhile_append_all d4 rest h4d hrest
  simp only [reMatchTs]
  simp only [s1.1, s1.2, s2.1, s2.2, s3.2, s4.2, s5.1, s5.2, s6.1]
  simp [h1, h2, h3, h4]

theorem mem_of_head?' {l : List Char} {c : Char} (h : l.head? = some c) : c ∈ l := by
  cases l with
  | nil => exact absurd h (by simp)
  | cons a t =>
    simp at h
    subst h
    exact List.mem_cons_self _ _

theorem pstrip_of_all_nonspace (xs : List Char)
    (h : ∀ c ∈ xs, isPySpace c = false) : pstrip xs = xs :=
  pstrip_of_ends xs (fun c hc => h c (mem_of_head?' hc))
    (fun c hc => h c (mem_of_getLast?' hc))

theorem getLast?_append_right {l₁ l₂ : List Char} (h : l₂ ≠ []) :
    (l₁ ++ l₂).getLast? = l₂.getLast? := by
  rw [← List.head?_reverse, ← List.head?_reverse, List.reverse_append]
  cases hl : l₂.reverse with
  | nil => exact absurd (by simpa using congrArg List.reverse hl) h
  | cons a t => simp [hl]

theorem not_colon_mem_of_digit {l : List Char}
    (hd : ∀ c ∈ l, c.isDigit = true) : ':' ∉ l :=
  fun hm => absurd rfl (isDigit_ne_colon (hd ':' hm))

theorem not_nl_mem_of_digit {l : List Char}
    (hd : ∀ c ∈ l, c.isDigit = true) : '\n' ∉ l :=
  fun hm => absurd rfl (isDigit_ne_nl (hd '\n' hm))

/-- `parse_timestamp` on a regex group `\d+:\d+` yields
`minutes * 60 + seconds` (src/app.py line 96). -/
theorem parse_timestamp_token (dm ds : List Char) (hm : dm ≠ [])
    (hmd : ∀ c ∈ dm, c.isDigit = true) (hs : ds ≠ [])
    (hsd : ∀ c ∈ ds, c.isDigit = true) :
    parse_timestamp (dm ++ ':' :: ds) = some (digitsVal dm * 60 + digitsVal ds) := by
  have hps : pstrip (dm ++ ':' :: ds) = dm ++ ':' :: ds := by
    apply pstrip_of_all_nonspace
    intro c hc
    rcases List.mem_append.1 hc with h | h
    · exact isDigit_not_space (hmd c h)
    · rcases List.mem_cons.1 h with h' | h'
      · subst h'
        decide
      · exact isDigit_not_space (hsd c h')
  have hsp : splitChar ':' (dm ++ ':' :: ds) = [dm, ds] := by
    rw [splitChar_append dm ds (not_colon_mem_of_digit hmd)]
    rw [splitChar_not_mem ds (not_colon_mem_of_digit hsd)]
  have hi1 : pyInt dm = some (digitsVal dm) := by
    simp [pyInt, hm, List.all_eq_true.2 hmd]
  have hi2 : pyInt ds = some (digitsVal ds) := by
    simp [pyInt, hs, List.all_eq_true.2 hsd]
  simp only [parse_timestamp, hps, hsp, hi1, hi2]

/-- What `parse_timestamps` does with a single line consisting of a valid
`\d+:\d+ \s* - \s* \d+:\d+` prefix followed by `rest` (which must not
begin with a further digit, lest the regex absorb it into the final
seconds group). -/
theorem lineClip_spec (dm ds dm' ds' ws1 ws2 rest : List Char)
    (hm : dm ≠ []) (hmd : ∀ c ∈ dm, c.isDigit = true)
    (hs : ds ≠ []) (hsd : ∀ c ∈ ds, c.isDigit = true)
    (hm' : dm' ≠ []) (hmd' : ∀ c ∈ dm', c.isDigit = true)
    (hs' : ds' ≠ []) (hsd' : ∀ c ∈ ds', c.isDigit = true)
    (hw1 : ∀ c ∈ ws1, isPySpace c = true)
    (hw2 : ∀ c ∈ ws2, isPySpace c = true)
    (hrest : headNot Char.isDigit rest) (hrs : rstripP rest = rest) :
    lineClip (dm ++ ':' :: (ds ++ (ws1 ++ '-' :: (ws2 ++ (dm' ++ ':' :: (ds' ++ rest)))))) =
      (if digitsVal dm * 60 + digitsVal ds < digitsVal dm' * 60 + digitsVal ds'
       then some ⟨dm ++ ':' :: ds, dm' ++ ':' :: ds',
         digitsVal dm * 60 + digitsVal ds, digitsVal dm' * 60 + digitsVal ds'⟩
       else none) := by
  have hline : dm ++ ':' :: (ds ++ (ws1 ++ '-' :: (ws2 ++ (dm' ++ ':' :: (ds' ++ rest))))) =
      (dm ++ ':' :: (ds ++ (ws1 ++ '-' :: (ws2 ++ (dm' ++ ':' :: ds'))))) ++ rest := by
    simp
  have hAne : (dm ++ ':' :: (ds ++ (ws1 ++ '-' :: (ws2 ++ (dm' ++ ':' :: ds'))))) ≠ [] := by
    cases dm with
    | nil => exact absurd rfl hm
    | cons a t => simp
  have hlast : ∃ c, (dm ++ ':' :: (ds ++ (ws1 ++ '-' :: (ws2 ++ (dm' ++ ':' :: ds'))))).getLast? =
      some c ∧ isPySpace c = false := by
    have hflat : dm ++ ':' :: (ds ++ (ws1 ++ '-' :: (ws2 ++ (dm' ++ ':' :: ds')))) =
        (dm ++ ':' :: (ds ++ (ws1 ++ '-' :: (ws2 ++ (dm' ++ [':']))))) ++ ds' := by
      simp
    obtain ⟨c, hc⟩ : ∃ c, ds'.getLast? = some c := by
      cases hd : ds'.getLast? with
      | none => exact absurd (List.getLast?_eq_none_iff.1 hd) hs'
      | some c => exact ⟨c, rfl⟩
    refine ⟨c, ?_, isDigit_not_space (hsd' c (mem_of_getLast?' hc))⟩
    rw [hflat, getLast?_append_right hs', hc]
  have hpstrip : pstrip ((dm ++ ':' :: (ds ++ (ws1 ++ '-' :: (ws2 ++ (dm' ++ ':' :: ds'))))) ++ rest) =
      (dm ++ ':' :: (ds ++ (ws1 ++ '-' :: (ws2 ++ (dm' ++ ':' :: ds'))))) ++ rest := by
    unfold pstrip
    rw [dropWhile_of_headNot _
      (headNot_append_left hAne
        (headNot_append_left hm (headNot_space_of_digit hmd)))]
    rw [rstripP_append_nonspace _ rest hlast, hrs]
  have hne : (dm ++ ':' :: (ds ++ (ws1 ++ '-' :: (ws2 ++ (dm' ++ ':' :: ds'))))) ++ rest ≠ [] := by
    cases dm with
    | nil => exact absurd rfl hm
    | cons a t => simp
  rw [hline]
  simp only [lineClip]
  rw [hpstrip, if_neg hne, ← hline]
  simp only [reMatchTs_spec dm ds dm' ds' ws1 ws2 rest hm hmd hs hsd hm' hmd' hs' hsd' hw1 hw2 hrest,
    parse_timestamp_token dm ds hm hmd hs hsd,
    parse_timestamp_token dm' ds' hm' hmd' hs' hsd']

/-- The source's accumulator loop processes one line at a time, appending
whatever `lineClip` yields for it. -/
theorem ptGo_cons (line : List Char) (rest : List (List Char)) (acc : List Clip) :
    ptGo (line :: rest) acc = ptGo rest (acc ++ (lineClip line).toList) := by
  simp only [ptGo, lineClip]
  by_cases h : pstrip line = []
  · simp [h]
  · simp only [if_neg h]
    cases hm : reMatchTs (pstrip line) with
    | none => simp
    | some g =>
      obtain ⟨g1, g2⟩ := g
      cases hp1 : parse_timestamp g1 with
      | none => simp [hp1]
      | some s =>
        cases hp2 : parse_timestamp g2 with
        | none => simp [hp1, hp2]
        | some e =>
          by_cases hlt : s < e
          · simp [hp1, hp2, hlt]
          · simp [hp1, hp2, hlt]

theorem ptGo_eq : ∀ (lines : List (List Char)) (acc : List Clip),
    ptGo lines acc = acc ++ lines.filterMap lineClip
  | [], acc => by simp [ptGo]
  | l :: ls, acc => by
    rw [ptGo_cons, ptGo_eq ls]
    cases h : lineClip l <;> simp [List.filterMap_cons, h]

/-- `parse_timestamps` is the per-line reading, line by line in input
order, with failing lines contributing nothing and not affecting their
neighbours. -/
theorem parse_timestamps_eq_filterMap (text : List Char) :
    parse_timestamps text = (pythonLines text).filterMap lineClip := by
  unfold parse_timestamps
  rw [ptGo_eq]
  simp

example : parse_timestamps (strL "2:30-3:15") =
    [⟨strL "2:30", strL "3:15", 150, 195⟩] := by decide

example : parse_timestamps (strL "1:00-1:10\n2:00-1:50\nabc\n3:00-3:30") =
    [⟨strL "1:00", strL "1:10", 60, 70⟩, ⟨strL "3:00", strL "3:30", 180, 210⟩] := by decide

example : parse_timestamps (strL "0:90 - 2:30") =
    [⟨strL "0:90", strL "2:30", 90, 150⟩] := by decide

example : format_duration (some 125) = strL "2:05" := by decide
example : format_views (some 1500) = strL "1.5K" := by decide


/-! ## Renderer lemmas for the parser round-trip -/

theorem pad2_ne_nil (n : Nat) : pad2 n ≠ [] := by
  unfold pad2
  by_cases h : n < 10 <;> simp [h, natChars_ne_nil]

theorem pad2_all_digit (n : Nat) : ∀ c ∈ pad2 n, c.isDigit = true := by
  unfold pad2
  by_cases h : n < 10
  · simp only [if_pos h]
    intro c hc
    rcases List.mem_cons.1 hc with h' | h'
    · subst h'
      decide
    · exact natChars_all_digit n c h'
  · simp only [if_neg h]
    exact natChars_all_digit n

theorem digitsVal_pad2 (n : Nat) : digitsVal (pad2 n) = n := by
  unfold pad2
  by_cases h : n < 10
  · simp only [if_pos h]
    show digitsValFrom 0 ('0' :: natChars n) = n
    rw [digitsValFrom_cons]
    norm_num
    exact digitsVal_natChars n
  · simp only [if_neg h]
    exact digitsVal_natChars n

theorem renderPair_chars (p : Nat × Nat) :
    ∀ c ∈ renderPair p, c.isDigit = true ∨ c = ':' ∨ c = '-' := by
  intro c hc
  simp only [renderPair, List.mem_append, List.mem_cons] at hc
  rcases hc with h | h | h | h | h | h | h
  · exact Or.inl (natChars_all_digit _ c h)
  · exact Or.inr (Or.inl h)
  · exact Or.inl (pad2_all_digit _ c h)
  · exact Or.inr (Or.inr h)
  · exact Or.inl (natChars_all_digit _ c h)
  · exact Or.inr (Or.inl h)
  · exact Or.inl (pad2_all_digit _ c h)

theorem nl_not_mem_renderPair (p : Nat × Nat) : '\n' ∉ renderPair p := by
  intro hm
  rcases renderPair_chars p '\n' hm with h | h | h
  · exact absurd h (by decide)
  · exact absurd h (by decide)
  · exact absurd h (by decide)

theorem renderPair_ne_nil (p : Nat × Nat) : renderPair p ≠ [] := by
  unfold renderPair
  cases hn : natChars (p.1 / 60) with
  | nil => exact absurd hn (natChars_ne_nil _)
  | cons a t => simp

theorem renderPair_head (p : Nat × Nat) :
    ∀ c, (renderPair p).head? = some c → c.isDigit = true := by
  intro c hc
  unfold renderPair at hc
  cases hn : natChars (p.1 / 60) with
  | nil => exact absurd hn (natChars_ne_nil _)
  | cons a t =>
    rw [hn] at hc
    simp at hc
    subst hc
    exact natChars_all_digit _ a (hn ▸ List.mem_cons_self _ _)

theorem renderPair_last (p : Nat × Nat) :
    ∀ c, (renderPair p).getLast? = some c → c.isDigit = true := by
  intro c hc
  have hflat : renderPair p =
      (natChars (p.1 / 60) ++ ':' :: (pad2 (p.1 % 60) ++
        ('-' :: (natChars (p.2 / 60) ++ [':'])))) ++ pad2 (p.2 % 60) := by
    simp [renderPair]
  rw [hflat, getLast?_append_right (pad2_ne_nil _)] at hc
  exact pad2_all_digit _ c (mem_of_getLast?' hc)

theorem joinNl_ne_nil (l : List Char) (ls : List (List Char)) (h : l ≠ []) :
    joinNl (l :: ls) ≠ [] := by
  cases ls with
  | nil => simpa [joinNl] using h
  | cons l' ls' =>
    rw [joinNl_cons_cons]
    simp

theorem joinNl_head (l : List Char) (ls : List (List Char)) (hl : l ≠ []) :
    (joinNl (l :: ls)).head? = l.head? := by
  cases ls with
  | nil => rfl
  | cons l' ls' =>
    rw [joinNl_cons_cons]
    cases l with
    | nil => exact absurd rfl hl
    | cons a t => simp

theorem joinNl_lastNot :
    ∀ ls : List (List Char),
      (∀ l ∈ ls, ∀ c, l.getLast? = some c → isPySpace c = false) →
      (∀ l ∈ ls, l ≠ ([] : List Char)) →
      ∀ c, (joinNl ls).getLast? = some c → isPySpace c = false
  | [], _, _ => by
    intro c hc
    simp [joinNl] at hc
  | [l], h, _ => by
    intro c hc
    exact h l (List.mem_singleton.2 rfl) c (by simpa [joinNl] using hc)
  | l :: l' :: ls', h, hne => by
    intro c hc
    rw [joinNl_cons_cons] at hc
    rw [getLast?_append_right (by simp)] at hc
    have hjn : joinNl (l' :: ls') ≠ [] :=
      joinNl_ne_nil l' ls' (hne l' (List.mem_cons_of_mem _ (List.mem_cons_self _ _)))
    have : ('\n' :: joinNl (l' :: ls')) = ['\n'] ++ joinNl (l' :: ls') := rfl
    rw [this, getLast?_append_right hjn] at hc
    exact joinNl_lastNot (l' :: ls')
      (fun x hx => h x (List.mem_cons_of_mem _ hx))
      (fun x hx => hne x (List.mem_cons_of_mem _ hx)) c hc

/-- `lineClip` on a rendered pair recovers exactly that pair (and its
label strings) when the range is valid, nothing otherwise. -/
theorem lineClip_renderPair (a b : Nat) :
    lineClip (renderPair (a, b)) =
      (if a < b then some ⟨natChars (a / 60) ++ ':' :: pad2 (a % 60),
        natChars (b / 60) ++ ':' :: pad2 (b % 60), a, b⟩ else none) := by
  have h := lineClip_spec (natChars (a / 60)) (pad2 (a % 60))
    (natChars (b / 60)) (pad2 (b % 60)) [] [] []
    (natChars_ne_nil _) (natChars_all_digit _) (pad2_ne_nil _) (pad2_all_digit _)
    (natChars_ne_nil _) (natChars_all_digit _) (pad2_ne_nil _) (pad2_all_digit _)
    (by simp) (by simp) (by intro c hc; simp at hc) rfl
  have hv1 : digitsVal (natChars (a / 60)) * 60 + digitsVal (pad2 (a % 60)) = a := by
    rw [digitsVal_natChars, digitsVal_pad2]
    omega
  have hv2 : digitsVal (natChars (b / 60)) * 60 + digitsVal (pad2 (b % 60)) = b := by
    rw [digitsVal_natChars, digitsVal_pad2]
    omega
  rw [hv1, hv2] at h
  have hshape : renderPair (a, b) = natChars (a / 60) ++ ':' :: (pad2 (a % 60) ++
      ([] ++ '-' :: ([] ++ (natChars (b / 60) ++ ':' :: (pad2 (b % 60) ++ []))))) := by
    simp [renderPair]
  rw [hshape]
  exact h

/-- The filterMap part of the round trip, by induction over the pairs. -/
theorem filterMap_lineClip_renderPair :
    ∀ qs : List (Nat × Nat), (∀ q ∈ qs, q.1 < q.2) →
      (((qs.map renderPair).filterMap lineClip).map
        (fun c => (c.start_sec, c.end_sec))) = qs
  | [], _ => by simp
  | q :: qs', hq => by
    obtain ⟨a, b⟩ := q
    have hlt : a < b := hq (a, b) (List.mem_cons_self _ _)
    have ih := filterMap_lineClip_renderPair qs'
      (fun x hx => hq x (List.mem_cons_of_mem _ hx))
    simp only [List.map_cons, List.filterMap_cons, lineClip_renderPair a b, if_pos hlt]
    rw [ih]

/-! ## Claim theorems -/

/-- C1: for every clip request with integer seconds start < end (and any
pad ≥ 0), the padded window is `[max(0, start - pad), end + pad]` — the
source's preview path computes exactly the pad = 5 instance — and the
relative offset used for the precise trim of the padded file is
`start - paddedStart` (so padded start plus offset recovers the absolute
start, and the offset differs from `start` whenever the window start is
positive), with the trim duration fed to the trim command equal to
`end - start`. -/
theorem c1_padding_and_relative_offset (s e pad : Int)
    (hse : s < e) (hs : 0 ≤ s) (hp : 0 ≤ pad) :
    (generate_preview_window s e).1 = (paddedWindow 5 s e).1
    ∧ (generate_preview_window s e).2.1 = (paddedWindow 5 s e).2
    ∧ (preview_relative_offsets s e (generate_preview_window s e).1).1 =
        s - (paddedWindow 5 s e).1
    ∧ (preview_relative_offsets s e (generate_preview_window s e).1).2 -
        (preview_relative_offsets s e (generate_preview_window s e).1).1 = e - s
    ∧ (∀ pv fp : List Char, ∀ crop : Bool, ∃ pre suf : List (List Char),
        pre ++ [strL "-t", pyIntRepr (e - s)] ++ suf =
          trimCmd pv (preview_relative_offsets s e (generate_preview_window s e).1).1
            (preview_relative_offsets s e (generate_preview_window s e).1).2 crop fp)
    ∧ (paddedWindow pad s e).1 + (s - (paddedWindow pad s e).1) = s
    ∧ (paddedWindow pad s e).1 ≤ s
    ∧ e ≤ (paddedWindow pad s e).2
    ∧ (0 < (paddedWindow pad s e).1 → s - (paddedWindow pad s e).1 ≠ s) := by
  refine ⟨rfl, rfl, rfl, ?_, ?_, ?_, ?_, ?_, ?_⟩
  · simp only [preview_relative_offsets]
    ring
  · intro pv fp crop
    refine ⟨[strL "ffmpeg", strL "-ss",
        pyIntRepr (preview_relative_offsets s e (generate_preview_window s e).1).1,
        strL "-i", pv],
      [strL "-c:v", strL "libx264", strL "-preset", strL "fast",
       strL "-crf", strL "26", strL "-c:a", strL "aac", strL "-b:a", strL "128k"]
      ++ (if crop then [strL "-vf", cropFilter] else [])
      ++ [strL "-avoid_negative_ts", strL "make_zero", strL "-y", fp], ?_⟩
    have hd : (preview_relative_offsets s e (generate_preview_window s e).1).2 -
        (preview_relative_offsets s e (generate_preview_window s e).1).1 = e - s := by
      simp only [preview_relative_offsets]
      ring
    simp [trimCmd, hd]
  · simp only [paddedWindow]
    ring
  · simp only [paddedWindow]
    omega
  · simp only [paddedWindow]
    omega
  · simp only [paddedWindow]
    omega

/-- Witness for C1 at the spec's test vector `start=130, end=145, pad=10`:
`paddedStart = 120`, relative offset `10`, duration `15`. -/
theorem c1_padding_witness :
    (paddedWindow 10 130 145).1 = 120
    ∧ (130 : Int) - (paddedWindow 10 130 145).1 = 10
    ∧ (145 : Int) - (130 : Int) = 15
    ∧ (paddedWindow 10 130 145).1 + ((130 : Int) - (paddedWindow 10 130 145).1) = 130 := by
  have h := c1_padding_and_relative_offset 130 145 10 (by norm_num) (by norm_num) (by norm_num)
  exact ⟨by decide, by decide, by decide, h.2.2.2.2.2.1⟩

/-- C2: any extraction request with `cropToVertical = true` — in
particular one that selected the fast stream-copy strategy — is executed
by the re-encode command carrying the scale/crop filter chain, never by
the copy-only command. -/
theorem c2_crop_forces_reencode (pm : Bool) (url : List Char) (s e : Int)
    (path : List Char) :
    download_clip_step pm url s e true path =
        ExtractStep.runFfmpeg (preciseCmd url s e true path)
    ∧ download_clip_fast_step url s e true path =
        ExtractStep.runFfmpeg (preciseCmd url s e true path)
    ∧ (∃ pre suf : List (List Char),
        pre ++ [strL "-vf", cropFilter] ++ suf = preciseCmd url s e true path)
    ∧ preciseCmd url s e true path ≠ fastCopyCmd url s e path := by
  refine ⟨?_, rfl, ?_, ?_⟩
  · cases pm <;> rfl
  · refine ⟨[strL "ffmpeg", strL "-ss", pyIntRepr s, strL "-i", url,
      strL "-t", pyIntRepr (e - s), strL "-c:v", strL "libx264",
      strL "-preset", strL "fast", strL "-crf", strL "26",
      strL "-c:a", strL "aac", strL "-b:a", strL "128k"],
      [strL "-avoid_negative_ts", strL "make_zero", strL "-y", path], ?_⟩
    simp [preciseCmd]
  · intro h
    have hl := congrArg List.length h
    simp [preciseCmd, fastCopyCmd] at hl

/-- C4 fails on the code: at the concrete request `start=10, end=5` the
universal `download_clip` router does not return an invalid-range
failure — there is no range comparison anywhere in it — it dispatches
straight to a strategy. -/
theorem c4_counterexample :
    download_clip_step false (strL "u") 10 5 false (strL "p") ≠
      ExtractStep.invalidRange := by decide

/-- C4 (amended): the extraction operation performs no range validation of
its own; for every request with `startSeconds ≥ endSeconds` it still
dispatches to the selected strategy, handing ffmpeg a command whose
duration argument `end - start` is non-positive.  (The only start/end
comparison outside the parser is in the preview-download path.) -/
theorem c4_no_validation_dispatches (pm : Bool) (url : List Char) (s e : Int)
    (crop : Bool) (path : List Char) (hse : e ≤ s) :
    ∃ cmd, download_clip_step pm url s e crop path = ExtractStep.runFfmpeg cmd
      ∧ (∃ pre suf : List (List Char),
          pre ++ [strL "-t", pyIntRepr (e - s)] ++ suf = cmd)
      ∧ e - s ≤ 0 := by
  cases pm with
  | false =>
    cases crop with
    | false =>
      refine ⟨fastCopyCmd url s e path, rfl, ⟨[strL "ffmpeg", strL "-ss",
        pyIntRepr s, strL "-i", url],
        [strL "-c", strL "copy", strL "-avoid_negative_ts", strL "make_zero",
         strL "-y", path], ?_⟩, by omega⟩
      simp [fastCopyCmd]
    | true =>
      refine ⟨preciseCmd url s e true path, rfl, ⟨[strL "ffmpeg", strL "-ss",
        pyIntRepr s, strL "-i", url],
        [strL "-c:v", strL "libx264", strL "-preset", strL "fast",
         strL "-crf", strL "26", strL "-c:a", strL "aac", strL "-b:a", strL "128k"]
        ++ (if true then [strL "-vf", cropFilter] else [])
        ++ [strL "-avoid_negative_ts", strL "make_zero", strL "-y", path], ?_⟩, by omega⟩
      simp [preciseCmd]
  | true =>
    refine ⟨preciseCmd url s e crop path, rfl, ⟨[strL "ffmpeg", strL "-ss",
      pyIntRepr s, strL "-i", url],
      [strL "-c:v", strL "libx264", strL "-preset", strL "fast",
       strL "-crf", strL "26", strL "-c:a", strL "aac", strL "-b:a", strL "128k"]
      ++ (if crop then [strL "-vf", cropFilter] else [])
      ++ [strL "-avoid_negative_ts", strL "make_zero", strL "-y", path], ?_⟩, by omega⟩
    simp [preciseCmd]

/-- Witness for C4's amended statement at `start=10, end=5`. -/
theorem c4_no_validation_witness :
    ∃ cmd, download_clip_step false (strL "u") 10 5 false (strL "p") =
        ExtractStep.runFfmpeg cmd
      ∧ (∃ pre suf : List (List Char),
          pre ++ [strL "-t", pyIntRepr ((5 : Int) - 10)] ++ suf = cmd)
      ∧ (5 : Int) - 10 ≤ 0 :=
  c4_no_validation_dispatches false (strL "u") 10 5 false (strL "p") (by norm_num)

/-- C8 fails on the code: at a concrete preview trim (shown both with a
failing and with a succeeding ffmpeg outcome) the padded preview file is
not deleted — `download_from_preview` / `trim_preview_video` contain no
file-removal action at all. -/
theorem c8_counterexample :
    FsAction.removeFile (strL "preview.mp4") ∉
      download_from_preview_actions (some (strL "preview.mp4")) true 5 15 false
        (strL "out.mp4") false false
    ∧ FsAction.removeFile (strL "preview.mp4") ∉
      download_from_preview_actions (some (strL "preview.mp4")) true 5 15 false
        (strL "out.mp4") true true := by
  constructor <;> decide

/-- C8 (amended): the padded preview temporary file is never deleted by
the preview-trim path — neither when the final trim succeeds nor when it
fails; the only external action performed is the single ffmpeg
invocation, and the file persists until session-directory teardown. -/
theorem c8_no_cleanup_ever (cp : Option (List Char)) (pe : Bool) (ts te : Int)
    (crop : Bool) (fp : List Char) (ok created : Bool) (path : List Char) :
    FsAction.removeFile path ∉
      download_from_preview_actions cp pe ts te crop fp ok created := by
  unfold download_from_preview_actions trim_preview_video_actions
  cases cp with
  | none => simp
  | some p =>
    cases pe with
    | false => simp
    | true =>
      by_cases hts : te ≤ ts
      · simp [hts]
      · simp [hts]

/-- C9: the formatter boundary values — `format_duration` maps 0 and
missing input to `"Unknown"` and 125 to `"2:05"`; `format_views` maps
0/missing to `"Unknown"`, 999 to `"999"`, 1500 to `"1.5K"`, and 2500000
to `"2.5M"`. -/
theorem c9_formatter_boundaries :
    format_duration (some 0) = strL "Unknown"
    ∧ format_duration none = strL "Unknown"
    ∧ format_duration (some 125) = strL "2:05"
    ∧ format_views (some 0) = strL "Unknown"
    ∧ format_views none = strL "Unknown"
    ∧ format_views (some 999) = strL "999"
    ∧ format_views (some 1500) = strL "1.5K"
    ∧ format_views (some 2500000) = strL "2.5M" := by
  refine ⟨?_, ?_, ?_, ?_, ?_, ?_, ?_, ?_⟩ <;> decide

/-- C5: rendering any list of second-pairs with `start < end` as
`"M:SS-M:SS"` lines and parsing the joined text returns exactly the
original pairs, in order. -/
theorem c5_parser_round_trip (ps : List (Nat × Nat)) (h : ∀ p ∈ ps, p.1 < p.2) :
    (parse_timestamps (renderLines ps)).map (fun c => (c.start_sec, c.end_sec)) = ps := by
  cases ps with
  | nil => decide
  | cons p ps' =>
    rw [parse_timestamps_eq_filterMap]
    have hmapne : (p :: ps').map renderPair ≠ [] := by simp
    have hnl : ∀ l ∈ (p :: ps').map renderPair, '\n' ∉ l := by
      intro l hl
      obtain ⟨q, _, rfl⟩ := List.mem_map.1 hl
      exact nl_not_mem_renderPair q
    have hhead : headNot isPySpace (renderLines (p :: ps')) := by
      intro c hc
      rw [renderLines, List.map_cons, joinNl_head _ _ (renderPair_ne_nil p)] at hc
      exact isDigit_not_space (renderPair_head p c hc)
    have hlast : ∀ c, (renderLines (p :: ps')).getLast? = some c → isPySpace c = false := by
      rw [renderLines]
      apply joinNl_lastNot
      · intro l hl c hc
        obtain ⟨q, _, rfl⟩ := List.mem_map.1 hl
        exact isDigit_not_space (renderPair_last q c hc)
      · intro l hl
        obtain ⟨q, _, rfl⟩ := List.mem_map.1 hl
        exact renderPair_ne_nil q
    have hps : pstrip (renderLines (p :: ps')) = renderLines (p :: ps') :=
      pstrip_of_ends _ hhead hlast
    simp only [pythonLines]
    rw [hps]
    simp only [renderLines]
    rw [splitChar_joinNl _ hmapne hnl]
    exact filterMap_lineClip_renderPair (p :: ps') h

/-- Witness for C5 on a concrete pair list (including an above-59 seconds
value and a zero start). -/
theorem c5_round_trip_witness :
    (parse_timestamps (renderLines [(90, 150), (0, 5), (3599, 3600)])).map
        (fun c => (c.start_sec, c.end_sec)) = [(90, 150), (0, 5), (3599, 3600)] :=
  c5_parser_round_trip [(90, 150), (0, 5), (3599, 3600)] (by decide)

/-- C6: the parser is a total function (it never throws); it reads the
input line by line in order, each line contributing independently through
`lineClip` (so a malformed or inverted-range line contributes nothing and
leaves the other lines' clips intact); every emitted clip has
`start_sec < end_sec`, and any emitted clip comes from a line that
matched the regex shape with numeric conversions succeeding; an input
whose lines all fail yields the empty sequence. -/
theorem c6_parser_independence (text : List Char) :
    parse_timestamps text = (pythonLines text).filterMap lineClip
    ∧ (∀ c ∈ parse_timestamps text, c.start_sec < c.end_sec)
    ∧ (∀ line : List Char, ∀ c : Clip, lineClip line = some c →
        ∃ g1 g2, reMatchTs (pstrip line) = some (g1, g2)
          ∧ parse_timestamp g1 = some c.start_sec
          ∧ parse_timestamp g2 = some c.end_sec
          ∧ c.start_sec < c.end_sec)
    ∧ ((∀ l ∈ pythonLines text, lineClip l = none) → parse_timestamps text = []) := by
  have h3 : ∀ line : List Char, ∀ c : Clip, lineClip line = some c →
      ∃ g1 g2, reMatchTs (pstrip line) = some (g1, g2)
        ∧ parse_timestamp g1 = some c.start_sec
        ∧ parse_timestamp g2 = some c.end_sec
        ∧ c.start_sec < c.end_sec := by
    intro line c hc
    simp only [lineClip] at hc
    by_cases h : pstrip line = []
    · rw [if_pos h] at hc
      exact absurd hc (by simp)
    · rw [if_neg h] at hc
      cases hm : reMatchTs (pstrip line) with
      | none => rw [hm] at hc; exact absurd hc (by simp)
      | some g =>
        obtain ⟨g1, g2⟩ := g
        rw [hm] at hc
        cases hp1 : parse_timestamp g1 with
        | none => simp [hp1] at hc
        | some s =>
          cases hp2 : parse_timestamp g2 with
          | none => simp [hp1, hp2] at hc
          | some e =>
            simp only [hp1, hp2] at hc
            by_cases hlt : s < e
            · rw [if_pos hlt] at hc
              obtain rfl := Option.some.inj hc
              exact ⟨g1, g2, rfl, hp1, hp2, hlt⟩
            · rw [if_neg hlt] at hc
              exact absurd hc (by simp)
  refine ⟨parse_timestamps_eq_filterMap text, ?_, h3, ?_⟩
  · intro c hc
    rw [parse_timestamps_eq_filterMap] at hc
    obtain ⟨line, _, hline⟩ := List.mem_filterMap.1 hc
    obtain ⟨g1, g2, _, _, _, hlt⟩ := h3 line c hline
    exact hlt
  · intro hall
    rw [parse_timestamps_eq_filterMap]
    exact List.filterMap_eq_nil_iff.2 hall

/-- Witness for C6: an input with zero valid lines (a malformed line and
a `start == end` line) yields the empty sequence. -/
theorem c6_parser_witness : parse_timestamps (strL "nonsense\n5:00-5:00") = [] :=
  (c6_parser_independence (strL "nonsense\n5:00-5:00")).2.2.2 (by decide)

/-- C7: the batch orchestrator with no selected video immediately reports
the no-video-selected condition and returns an empty file list with zero
engine invocations; and when (on a non-blank input) the parser yields
zero valid clip requests, it reports the no-valid-timestamps condition,
again with an empty file list and zero engine invocations. -/
theorem c7_orchestrator_guards (engine : EngineCall → Option (List Char) × List Char)
    (text pre0 q : List Char) (cv pm : Bool) :
    process_download engine none text pre0 q cv pm =
        (strL "❌ No video selected", [], [])
    ∧ (∀ v : Video, pstrip text ≠ [] → parse_timestamps text = [] →
        process_download engine (some v) text pre0 q cv pm =
          (strL "❌ No valid timestamps. Use format: 2:30-3:15 (one per line)", [], [])) := by
  constructor
  · rfl
  · intro v ht hc
    simp [process_download, ht, hc]

/-- Witness for C7 at a concrete engine, video and text. -/
theorem c7_orchestrator_witness :
    process_download engineAllOk none (strL "1:00-2:00") (strL "clip") (strL "480") false true =
        (strL "❌ No video selected", [], [])
    ∧ process_download engineAllOk (some ⟨strL "T", strL "U"⟩) (strL "abc") (strL "clip")
        (strL "480") false true =
        (strL "❌ No valid timestamps. Use format: 2:30-3:15 (one per line)", [], []) :=
  ⟨(c7_orchestrator_guards engineAllOk (strL "1:00-2:00") (strL "clip") (strL "480") false true).1,
   (c7_orchestrator_guards engineAllOk (strL "abc") (strL "clip") (strL "480") false true).2
     ⟨strL "T", strL "U"⟩ (by decide) (by decide)⟩

/-- C10 fails on the code as stated: after the valid range `0:00-0:01`,
the extra text `"0"` is not ignored — the regex's final `\d+` absorbs it,
so the line `"0:00-0:010"` yields the clip `(0, 10)`, not the leading
range's `(0, 1)`. -/
theorem c10_counterexample :
    (parse_timestamps (strL "0:00-0:010")).map (fun c => (c.start_sec, c.end_sec)) = [(0, 10)]
    ∧ ¬ (∃ c ∈ parse_timestamps (strL "0:00-0:010"), c.start_sec = 0 ∧ c.end_sec = 1) := by
  constructor
  · decide
  · decide

/-- C10 (amended): a line whose valid range is followed by extra text
whose first character is not a digit (and which contains no newline)
still yields exactly the leading range's clip; the digit tokens are
arbitrary digit runs valued by `minutes * 60 + seconds` with the seconds
component unbounded (so `"0:90 - 2:30"` yields `startSeconds = 90`); a
digit-leading suffix is instead absorbed into the end-seconds token. -/
theorem c10_prefix_match_unbounded_seconds
    (dm ds dm' ds' ws1 ws2 rest : List Char)
    (hm : dm ≠ []) (hmd : ∀ c ∈ dm, c.isDigit = true)
    (hs : ds ≠ []) (hsd : ∀ c ∈ ds, c.isDigit = true)
    (hm2 : dm' ≠ []) (hmd2 : ∀ c ∈ dm', c.isDigit = true)
    (hs2 : ds' ≠ []) (hsd2 : ∀ c ∈ ds', c.isDigit = true)
    (hw1 : ∀ c ∈ ws1, isPySpace c = true) (hnw1 : '\n' ∉ ws1)
    (hw2 : ∀ c ∈ ws2, isPySpace c = true) (hnw2 : '\n' ∉ ws2)
    (hrest : headNot Char.isDigit rest) (hnr : '\n' ∉ rest)
    (hlt : digitsVal dm * 60 + digitsVal ds < digitsVal dm' * 60 + digitsVal ds') :
    (parse_timestamps (dm ++ ':' :: (ds ++ (ws1 ++ '-' ::
        (ws2 ++ (dm' ++ ':' :: (ds' ++ rest))))))).map
        (fun c => (c.start_sec, c.end_sec)) =
      [(digitsVal dm * 60 + digitsVal ds, digitsVal dm' * 60 + digitsVal ds')] := by
  have hline : dm ++ ':' :: (ds ++ (ws1 ++ '-' :: (ws2 ++ (dm' ++ ':' :: (ds' ++ rest))))) =
      (dm ++ ':' :: (ds ++ (ws1 ++ '-' :: (ws2 ++ (dm' ++ ':' :: ds'))))) ++ rest := by
    simp
  have hAne : (dm ++ ':' :: (ds ++ (ws1 ++ '-' :: (ws2 ++ (dm' ++ ':' :: ds'))))) ≠ [] := by
    cases dm with
    | nil => exact absurd rfl hm
    | cons a t => simp
  have hlastA : ∃ c, (dm ++ ':' :: (ds ++ (ws1 ++ '-' :: (ws2 ++ (dm' ++ ':' :: ds'))))).getLast? =
      some c ∧ isPySpace c = false := by
    have hflat : dm ++ ':' :: (ds ++ (ws1 ++ '-' :: (ws2 ++ (dm' ++ ':' :: ds')))) =
        (dm ++ ':' :: (ds ++ (ws1 ++ '-' :: (ws2 ++ (dm' ++ [':']))))) ++ ds' := by
      simp
    obtain ⟨c, hc⟩ : ∃ c, ds'.getLast? = some c := by
      cases hd : ds'.getLast? with
      | none => exact absurd (List.getLast?_eq_none_iff.1 hd) hs2
      | some c => exact ⟨c, rfl⟩
    refine ⟨c, ?_, isDigit_not_space (hsd2 c (mem_of_getLast?' hc))⟩
    rw [hflat, getLast?_append_right hs2, hc]
  have hpstrip : pstrip ((dm ++ ':' :: (ds ++ (ws1 ++ '-' :: (ws2 ++ (dm' ++ ':' :: ds'))))) ++ rest) =
      (dm ++ ':' :: (ds ++ (ws1 ++ '-' :: (ws2 ++ (dm' ++ ':' :: ds'))))) ++ rstripP rest := by
    unfold pstrip
    rw [dropWhile_of_headNot _
      (headNot_append_left hAne
        (headNot_append_left hm (headNot_space_of_digit hmd)))]
    exact rstripP_append_nonspace _ rest hlastA
  have hnlA : '\n' ∉ (dm ++ ':' :: (ds ++ (ws1 ++ '-' :: (ws2 ++ (dm' ++ ':' :: ds'))))) := by
    intro hmem
    simp only [List.mem_append, List.mem_cons] at hmem
    rcases hmem with h | h | h | h | h | h | h | h | h
    · exact absurd rfl (isDigit_ne_nl (hmd '\n' h))
    · exact absurd h (by decide)
    · exact absurd rfl (isDigit_ne_nl (hsd '\n' h))
    · exact hnw1 h
    · exact absurd h (by decide)
    · exact hnw2 h
    · exact absurd rfl (isDigit_ne_nl (hmd2 '\n' h))
    · exact absurd h (by decide)
    · exact absurd rfl (isDigit_ne_nl (hsd2 '\n' h))
  have hlines : pythonLines (dm ++ ':' :: (ds ++ (ws1 ++ '-' ::
      (ws2 ++ (dm' ++ ':' :: (ds' ++ rest)))))) =
      [(dm ++ ':' :: (ds ++ (ws1 ++ '-' :: (ws2 ++ (dm' ++ ':' :: ds'))))) ++ rstripP rest] := by
    simp only [pythonLines]
    rw [hline, hpstrip]
    apply splitChar_not_mem
    intro hmem
    rcases List.mem_append.1 hmem with h | h
    · exact hnlA h
    · exact not_mem_rstripP hnr h
  rw [parse_timestamps_eq_filterMap, hlines]
  have hAform : (dm ++ ':' :: (ds ++ (ws1 ++ '-' :: (ws2 ++ (dm' ++ ':' :: ds'))))) ++ rstripP rest =
      dm ++ ':' :: (ds ++ (ws1 ++ '-' :: (ws2 ++ (dm' ++ ':' :: (ds' ++ rstripP rest))))) := by
    simp
  rw [hAform]
  simp only [List.filterMap_cons, List.filterMap_nil,
    lineClip_spec dm ds dm' ds' ws1 ws2 (rstripP rest) hm hmd hs hsd hm2 hmd2 hs2 hsd2 hw1 hw2
      (headNot_rstripP rest hrest) (rstripP_idem rest), if_pos hlt]
  simp

/-- Witness for C10 amended: the spec's own instance `"0:90 - 2:30"` (with
a trailing comment) yields a clip with `startSeconds = 90`. -/
theorem c10_unbounded_seconds_witness :
    (parse_timestamps (strL "0:90 - 2:30 (outro)")).map
        (fun c => (c.start_sec, c.end_sec)) = [(90, 150)] := by
  have hrest : headNot Char.isDigit (strL " (outro)") := by
    intro c hc
    rw [show (strL " (outro)").head? = some ' ' from rfl] at hc
    obtain rfl := Option.some.inj hc
    decide
  have h := c10_prefix_match_unbounded_seconds (strL "0") (strL "90") (strL "2") (strL "30")
    (strL " ") (strL " ") (strL " (outro)")
    (by decide) (by decide) (by decide) (by decide)
    (by decide) (by decide) (by decide) (by decide)
    (by decide) (by decide) (by decide) (by decide)
    hrest (by decide) (by decide)
  have hline : strL "0:90 - 2:30 (outro)" =
      strL "0" ++ ':' :: (strL "90" ++ (strL " " ++ '-' ::
        (strL " " ++ (strL "2" ++ ':' :: (strL "30" ++ strL " (outro)"))))) := by decide
  rw [hline, h]
  decide

theorem length_enumFrom' {α : Type} :
    ∀ (i : Nat) (l : List α), (List.enumFrom i l).length = l.length
  | _, [] => rfl
  | i, _ :: l => by simp [List.enumFrom, length_enumFrom' (i + 1) l]

/-- Closed form of the orchestrator loop: for every clip, in order, one
attempt line and one result line; the files are the successes in order;
the engine is called once per clip — regardless of any individual call's
failure. -/
theorem pdLoop_eq (engine : EngineCall → Option (List Char) × List Char)
    (url pre q : List Char) (cv pm : Bool) (total : Nat) :
    ∀ (cs : List Clip) (i : Nat),
      pdLoop engine url pre q cv pm total cs i =
        ((List.enumFrom i cs).flatMap (fun x =>
            [attemptLine x.1 total x.2,
             resultLine (engine (mkCall url pre q cv pm x.2 x.1)).2]),
         (List.enumFrom i cs).filterMap (fun x => (engine (mkCall url pre q cv pm x.2 x.1)).1),
         (List.enumFrom i cs).map (fun x => mkCall url pre q cv pm x.2 x.1))
  | [], i => by simp [pdLoop, List.enumFrom]
  | c :: cs, i => by
    have ih := pdLoop_eq engine url pre q cv pm total cs (i + 1)
    simp only [pdLoop, ih, List.enumFrom]
    cases h : (engine (mkCall url pre q cv pm c i)).1 with
    | none => simp [h]
    | some p => simp [h]

/-- C3 fails on the code in one detail: the literal final report line is
the file-retention reminder, not the tally — at a concrete one-clip batch
whose extraction fails, the last line of the report is the reminder,
which is not a tally line of any counts. -/
theorem c3_final_line_counterexample :
    (splitChar '\n' (process_download engineAllFail (some ⟨strL "T", strL "U"⟩)
        (strL "0:01-0:02") (strL "clip") (strL "480") false true).1).getLast? =
      some (strL "💾 Download files immediately - they will be deleted when session ends.")
    ∧ ∀ k n : Nat,
        strL "💾 Download files immediately - they will be deleted when session ends." ≠
          strL "✅ Successfully downloaded " ++ natChars k ++ strL "/" ++ natChars n
            ++ strL " clips!" := by
  constructor
  · decide
  · intro k n h
    have h1 := congrArg List.head? h
    rw [show (strL "💾 Download files immediately - they will be deleted when session ends.").head? =
        some '💾' from rfl] at h1
    rw [show (strL "✅ Successfully downloaded " ++ natChars k ++ strL "/" ++ natChars n
        ++ strL " clips!").head? = some '✅' from rfl] at h1
    exact absurd (Option.some.inj h1) (by decide)

/-- C3 (amended): for every non-empty parsed batch, a failure of any
single clip's extraction does not stop the remaining clips — the report
is exactly the header lines, then, for every clip in order, an attempt
line and a result line, then the `succeeded/total` tally line, followed
by one final retention-reminder line (so the tally is the second-to-last
report element, not the literal last line); the engine is invoked once
per clip. -/
theorem c3_batch_isolation (engine : EngineCall → Option (List Char) × List Char)
    (v : Video) (text pre0 q : List Char) (cv pm : Bool)
    (htext : pstrip text ≠ []) (hclips : parse_timestamps text ≠ []) :
    process_download engine (some v) text pre0 q cv pm =
      (let clips := parse_timestamps text
       let pre := if pstrip pre0 = [] then strL "clip" else pre0
       let body := (List.enumFrom 1 clips).flatMap (fun x =>
         [attemptLine x.1 clips.length x.2,
          resultLine (engine (mkCall v.url pre q cv pm x.2 x.1)).2])
       let files := (List.enumFrom 1 clips).filterMap
         (fun x => (engine (mkCall v.url pre q cv pm x.2 x.1)).1)
       let calls := (List.enumFrom 1 clips).map (fun x => mkCall v.url pre q cv pm x.2 x.1)
       (joinNl (headerLine clips.length pm :: videoLine v.title ::
          (body ++ [tallyLine files.length clips.length, tipLine])), files, calls))
    ∧ (process_download engine (some v) text pre0 q cv pm).2.2.length =
        (parse_timestamps text).length := by
  have hmain : process_download engine (some v) text pre0 q cv pm =
      (let clips := parse_timestamps text
       let pre := if pstrip pre0 = [] then strL "clip" else pre0
       let body := (List.enumFrom 1 clips).flatMap (fun x =>
         [attemptLine x.1 clips.length x.2,
          resultLine (engine (mkCall v.url pre q cv pm x.2 x.1)).2])
       let files := (List.enumFrom 1 clips).filterMap
         (fun x => (engine (mkCall v.url pre q cv pm x.2 x.1)).1)
       let calls := (List.enumFrom 1 clips).map (fun x => mkCall v.url pre q cv pm x.2 x.1)
       (joinNl (headerLine clips.length pm :: videoLine v.title ::
          (body ++ [tallyLine files.length clips.length, tipLine])), files, calls)) := by
    simp only [process_download, if_neg htext, if_neg hclips,
      pdLoop_eq engine v.url (if pstrip pre0 = [] then strL "clip" else pre0) q cv pm
        (parse_timestamps text).length (parse_timestamps text) 1]
  refine ⟨hmain, ?_⟩
  rw [hmain]
  simp only [List.length_map]
  exact length_enumFrom' 1 (parse_timestamps text)

/-- Witness for C3 amended: a three-line input with one malformed line
parses to two clips; with an engine that fails every call, the engine is
still invoked for both clips. -/
theorem c3_batch_isolation_witness :
    (process_download engineAllFail (some ⟨strL "T", strL "U"⟩)
        (strL "0:01-0:02\nbad\n0:05-0:07") (strL "clip") (strL "480") false true).2.2.length =
      (parse_timestamps (strL "0:01-0:02\nbad\n0:05-0:07")).length
    ∧ (parse_timestamps (strL "0:01-0:02\nbad\n0:05-0:07")).length = 2 :=
  ⟨(c3_batch_isolation engineAllFail ⟨strL "T", strL "U"⟩
      (strL "0:01-0:02\nbad\n0:05-0:07") (strL "clip") (strL "480") false true
      (by decide) (by decide)).2, by decide⟩
